import Mathlib

/-!
Shallow embedding of the federated-learning coordinator in src/server.py:
client sampling (FedAvg.sample_clients), the mixing-coefficient computation
and round pipeline (FedAvg.train_federated_model), weighted aggregation
(FedAvg.aggregate and FedADG.aggregate), model setup (FedAvg.setup_model and
FedADG.setup_model) and the reporting tail of FedAvg.fit.

Parameter tensors are modelled as rational scalars (aggregation is pointwise,
so a single coordinate carries the whole algebra); state dicts are ordered
association lists; a raised Python exception is Option.none; the random draw
of numpy is an explicit input constrained by hypotheses.
-/

/-- A model state dict: ordered mapping from parameter key to value. -/
abbrev StateDict := List (String × ℚ)

/-- The keys of a state dict, in order. -/
def keysOf (d : StateDict) : List String := d.map Prod.fst

/-- Python dict read access d[k]: the value at the first matching key,
none (KeyError) when the key is absent. -/
def dlookup : StateDict → String → Option ℚ
  | [], _ => none
  | (k₀, v) :: rest, k => if k₀ = k then some v else dlookup rest k

/-- Python OrderedDict assignment d[k] = v: overwrite in place when the key
is present, append at the end otherwise. -/
def odAssign : StateDict → String → ℚ → StateDict
  | [], k, v => [(k, v)]
  | (k₀, v₀) :: rest, k, v =>
      if k₀ = k then (k, v) :: rest else (k₀, v₀) :: odAssign rest k v

/-- The inner loop of FedAvg.aggregate (src/server.py lines 150-154): for
each key of the global state dict, seed the accumulator with
coefficient * local value when this is the first sampled client
(first = true), otherwise add coefficient * local value into the existing
entry.  A missing key is a KeyError, hence none. -/
def aggStep (c : ℚ) (lw : StateDict) (first : Bool) :
    List String → StateDict → Option StateDict
  | [], acc => some acc
  | k :: ks, acc =>
    match dlookup lw k with
    | none => none
    | some v =>
      if first then aggStep c lw first ks (odAssign acc k (c * v))
      else
        match dlookup acc k with
        | none => none
        | some a => aggStep c lw first ks (odAssign acc k (a + c * v))

/-- The outer loop of FedAvg.aggregate (src/server.py lines 148-154):
iterate over the sampled client indices with the enumerate counter it,
fetch the state dict of the client and the parallel coefficient, and run
the per-key accumulation.  An out-of-range index is an IndexError, hence
none. -/
def aggLoop (clients : List StateDict) (gk : List String)
    (coefficients : List ℚ) : List ℕ → ℕ → StateDict → Option StateDict
  | [], _, acc => some acc
  | idx :: rest, it, acc =>
    match clients[idx]?, coefficients[it]? with
    | some lw, some c =>
      match aggStep c lw (it == 0) gk acc with
      | none => none
      | some acc2 => aggLoop clients gk coefficients rest (it + 1) acc2
    | _, _ => none

/-- FedAvg.aggregate (src/server.py lines 141-155): the new global state
produced from the state dicts of the sampled clients, with gk the key list
of the current global model state dict. -/
def aggregate (clients : List StateDict) (gk : List String)
    (sampled : List ℕ) (coefficients : List ℚ) : Option StateDict :=
  aggLoop clients gk coefficients sampled 0 []

/-- The association list with keys ks and value g k at each key k. -/
def mapOf (ks : List String) (g : String → ℚ) : StateDict :=
  ks.map (fun k => (k, g k))

theorem keysOf_mapOf (ks : List String) (g : String → ℚ) :
    keysOf (mapOf ks g) = ks := by
  induction ks with
  | nil => rfl
  | cons k ks ih => simp [mapOf, keysOf] at ih ⊢; exact ih

theorem mapOf_congr {ks : List String} {f g : String → ℚ}
    (h : ∀ k ∈ ks, f k = g k) : mapOf ks f = mapOf ks g := by
  induction ks with
  | nil => rfl
  | cons k ks ih =>
      simp only [mapOf, List.map_cons, List.cons.injEq] at ih ⊢
      exact ⟨by rw [h k (by simp)], ih (fun x hx => h x (by simp [hx]))⟩

theorem dlookup_mapOf {ks : List String} {k : String} (g : String → ℚ)
    (hk : k ∈ ks) : dlookup (mapOf ks g) k = some (g k) := by
  induction ks with
  | nil => simp at hk
  | cons k₀ ks ih =>
      rcases List.mem_cons.1 hk with h | h
      · simp [mapOf, dlookup, h]
      · by_cases hke : k₀ = k
        · simp [mapOf, dlookup, hke]
        · simp [mapOf, dlookup, hke]
          simpa [mapOf] using ih h

theorem odAssign_mapOf {ks : List String} {k : String} (g : String → ℚ)
    (v : ℚ) (hnd : ks.Nodup) (hk : k ∈ ks) :
    odAssign (mapOf ks g) k v = mapOf ks (Function.update g k v) := by
  induction ks with
  | nil => simp at hk
  | cons k₀ ks ih =>
      rcases List.nodup_cons.1 hnd with ⟨hk₀, hnd'⟩
      rcases List.mem_cons.1 hk with h | h
      · subst h
        have h2 : List.map (fun x => (x, Function.update g k v x)) ks
            = List.map (fun x => (x, g x)) ks := by
          refine List.map_congr_left ?_
          intro x hx
          have hxk : x ≠ k := fun he => hk₀ (he ▸ hx)
          simp [Function.update, hxk]
        simp [mapOf, odAssign, h2]
      · have hke : k₀ ≠ k := fun he => hk₀ (he ▸ h)
        have h1 : Function.update g k v k₀ = g k₀ := by
          simp [Function.update, hke]
        have h2 := ih hnd' h
        simp only [mapOf, List.map_cons, odAssign, if_neg hke]
        rw [h1]
        refine congrArg₂ _ rfl ?_
        simpa [mapOf] using h2

theorem odAssign_of_not_mem {acc : StateDict} {k : String} (v : ℚ)
    (h : k ∉ keysOf acc) : odAssign acc k v = acc ++ [(k, v)] := by
  induction acc with
  | nil => rfl
  | cons p rest ih =>
      obtain ⟨k₀, v₀⟩ := p
      have hke : k₀ ≠ k := by
        intro he; exact h (by simp [keysOf, he])
      simp only [odAssign, if_neg hke, List.cons_append, List.cons.injEq,
        true_and]
      exact ih (fun hm => h (by simp [keysOf] at hm ⊢; exact Or.inr hm))

/-- Seeding pass: with every key of ks present in the local state dict,
the first-client pass folds assignments over the accumulator. -/
theorem aggStep_true_eq_foldl (c : ℚ) (lw : StateDict) (w : String → ℚ) :
    ∀ (ks : List String) (acc : StateDict),
      (∀ k ∈ ks, dlookup lw k = some (w k)) →
      aggStep c lw true ks acc
        = some (ks.foldl (fun a k => odAssign a k (c * w k)) acc) := by
  intro ks
  induction ks with
  | nil => intro acc _; rfl
  | cons k ks ih =>
      intro acc hlw
      have hk : dlookup lw k = some (w k) := hlw k (by simp)
      simp only [aggStep, hk, if_pos, List.foldl_cons]
      exact ih _ (fun x hx => hlw x (by simp [hx]))

theorem foldl_odAssign_fresh (c : ℚ) (w : String → ℚ) :
    ∀ (ks : List String) (acc : StateDict), ks.Nodup →
      (∀ k ∈ ks, k ∉ keysOf acc) →
      ks.foldl (fun a k => odAssign a k (c * w k)) acc
        = acc ++ mapOf ks (fun k => c * w k) := by
  intro ks
  induction ks with
  | nil => intro acc _ _; simp [mapOf]
  | cons k ks ih =>
      intro acc hnd hfresh
      rcases List.nodup_cons.1 hnd with ⟨hk₀, hnd'⟩
      have h1 : odAssign acc k (c * w k) = acc ++ [(k, c * w k)] :=
        odAssign_of_not_mem _ (hfresh k (by simp))
      simp only [List.foldl_cons, h1]
      rw [ih (acc ++ [(k, c * w k)]) hnd' ?_]
      · simp [mapOf]
      · intro x hx
        have h2 : x ∉ keysOf acc := hfresh x (by simp [hx])
        have h3 : x ≠ k := fun he => hk₀ (he ▸ hx)
        simp [keysOf] at h2 ⊢
        exact ⟨h2, h3⟩

theorem aggStep_true_mapOf (c : ℚ) (lw : StateDict) (w : String → ℚ)
    (ks : List String) (hnd : ks.Nodup)
    (hlw : ∀ k ∈ ks, dlookup lw k = some (w k)) :
    aggStep c lw true ks [] = some (mapOf ks (fun k => c * w k)) := by
  rw [aggStep_true_eq_foldl c lw w ks [] hlw,
    foldl_odAssign_fresh c w ks [] hnd (by simp [keysOf])]
  simp

/-- Accumulating pass: with the accumulator holding every global key, a
non-first client adds coefficient * local value into each entry. -/
theorem aggStep_false_mapOf (c : ℚ) (lw : StateDict) (w : String → ℚ)
    (gk : List String) (hgnd : gk.Nodup) :
    ∀ (ks : List String) (g : String → ℚ), ks.Nodup →
      (∀ k ∈ ks, k ∈ gk) →
      (∀ k ∈ ks, dlookup lw k = some (w k)) →
      aggStep c lw false ks (mapOf gk g)
        = some (mapOf gk
            (fun k => if k ∈ ks then g k + c * w k else g k)) := by
  intro ks
  induction ks with
  | nil =>
      intro g _ _ _
      simp only [aggStep, Option.some.injEq]
      exact (mapOf_congr (by intro k _; simp)).symm
  | cons k ks ih =>
      intro g hnd hsub hlw
      rcases List.nodup_cons.1 hnd with ⟨hk₀, hnd'⟩
      have hk : dlookup lw k = some (w k) := hlw k (by simp)
      have hkg : k ∈ gk := hsub k (by simp)
      have hacc : dlookup (mapOf gk g) k = some (g k) := dlookup_mapOf g hkg
      simp only [aggStep, hk, hacc, Bool.false_eq_true, if_false]
      rw [odAssign_mapOf g (g k + c * w k) hgnd hkg]
      rw [ih (Function.update g k (g k + c * w k)) hnd'
        (fun x hx => hsub x (by simp [hx]))
        (fun x hx => hlw x (by simp [hx]))]
      refine congrArg _ (mapOf_congr ?_)
      intro x _
      by_cases hxk : x = k
      · subst hxk
        simp [Function.update, hk₀]
      · simp [Function.update, hxk]

/-- The tail of the aggregation loop (counter at least 1): starting from an
accumulator over the global keys, each remaining client adds its weighted
contribution pointwise. -/
theorem aggLoop_tail (clients : List StateDict) (gk : List String)
    (coefficients : List ℚ) (w : ℕ → String → ℚ) (cf : ℕ → ℚ)
    (hgnd : gk.Nodup) :
    ∀ (rest : List ℕ) (it : ℕ) (g : String → ℚ), it ≠ 0 →
      (∀ j (hj : j < rest.length),
        coefficients[it + j]? = some (cf (it + j)) ∧
        ∃ lw, clients[rest.get ⟨j, hj⟩]? = some lw ∧
          ∀ k ∈ gk, dlookup lw k = some (w (it + j) k)) →
      aggLoop clients gk coefficients rest it (mapOf gk g)
        = some (mapOf gk (fun k =>
            g k + ∑ j ∈ Finset.range rest.length,
              cf (it + j) * w (it + j) k)) := by
  intro rest
  induction rest with
  | nil =>
      intro it g _ _
      simp only [aggLoop, Option.some.injEq]
      exact (mapOf_congr (by intro k _; simp)).symm
  | cons idx rest ih =>
      intro it g hit h
      obtain ⟨hc0, lw, hlw, hval⟩ := h 0 (by simp)
      simp only [Nat.add_zero] at hc0
      simp only [Nat.add_zero] at hval
      have hbeq : (it == 0) = false := by
        simpa using hit
      have hstep := aggStep_false_mapOf (cf it) lw (w it) gk
        hgnd gk g hgnd (fun _ hk => hk) hval
      simp only [List.get] at hlw
      simp only [aggLoop, hlw, hc0, hbeq, hstep]
      have hmap : mapOf gk (fun k => if k ∈ gk then
          g k + cf it * w it k else g k)
          = mapOf gk (fun k => g k + cf it * w it k) :=
        mapOf_congr (by intro k hk; simp [hk])
      rw [hmap]
      rw [ih (it + 1) (fun k => g k + cf it * w it k)
        (by omega) ?_]
      · refine congrArg _ (mapOf_congr ?_)
        intro k _
        simp only [List.length_cons]
        rw [Finset.sum_range_succ' (fun j => cf (it + j) * w (it + j) k)]
        have hsc : ∀ j ∈ Finset.range rest.length,
            cf (it + (j + 1)) * w (it + (j + 1)) k
              = cf (it + 1 + j) * w (it + 1 + j) k := by
          intro j _
          have harg : it + (j + 1) = it + 1 + j := by omega
          rw [harg]
        rw [Finset.sum_congr rfl hsc]
        simp only [Nat.add_zero]
        ring
      · intro j hj
        obtain ⟨hc, lw', hlw', hval'⟩ := h (j + 1) (by simpa using hj)
        have harg : it + 1 + j = it + (j + 1) := by omega
        rw [harg]
        exact ⟨hc, lw', hlw', hval'⟩

/-- FedAvg.aggregate computes, at every global key, the linear combination
of the sampled client values with the parallel coefficients. -/
theorem aggregate_sum_helper (clients : List StateDict) (gk : List String)
    (sampled : List ℕ) (coefficients : List ℚ)
    (w : ℕ → String → ℚ) (cf : ℕ → ℚ)
    (hgnd : gk.Nodup) (hne : sampled ≠ [])
    (h : ∀ j (hj : j < sampled.length),
      coefficients[j]? = some (cf j) ∧
      ∃ lw, clients[sampled.get ⟨j, hj⟩]? = some lw ∧
        ∀ k ∈ gk, dlookup lw k = some (w j k)) :
    aggregate clients gk sampled coefficients
      = some (mapOf gk (fun k =>
          ∑ j ∈ Finset.range sampled.length, cf j * w j k)) := by
  obtain ⟨i₀, rest, rfl⟩ := List.exists_cons_of_ne_nil hne
  obtain ⟨hc0, lw, hlw, hval⟩ := h 0 (by simp)
  have hseed := aggStep_true_mapOf (cf 0) lw (w 0) gk hgnd hval
  simp only [List.get] at hlw
  simp only [aggregate, aggLoop, hlw, hc0, Nat.zero_eq, beq_self_eq_true,
    hseed]
  rw [aggLoop_tail clients gk coefficients w cf hgnd rest 1
    (fun k => cf 0 * w 0 k) (by omega) ?_]
  · refine congrArg _ (mapOf_congr ?_)
    intro k _
    simp only [List.length_cons]
    rw [Finset.sum_range_succ' (fun j => cf j * w j k)]
    have hsc : ∀ j ∈ Finset.range rest.length,
        cf (j + 1) * w (j + 1) k = cf (1 + j) * w (1 + j) k := by
      intro j _
      have harg : j + 1 = 1 + j := by omega
      rw [harg]
    rw [Finset.sum_congr rfl hsc]
    ring
  · intro j hj
    obtain ⟨hc, lw', hlw', hval'⟩ := h (j + 1) (by simpa using hj)
    have harg : 1 + j = j + 1 := by omega
    rw [harg]
    exact ⟨hc, lw', hlw', hval'⟩

/-- C1: for every non-empty list of sampled client indices and every
parallel coefficient vector, FedAvg.aggregate produces, for each parameter
key of the current global state, the value
sum_j coefficients[j] * clientState[sampled[j]][key], accumulated in list
order with the first sampled index seeding the accumulator, and the
resulting state has exactly the key set of the input global state. -/
theorem C1_aggregate_weighted_sum (clients : List StateDict)
    (gk : List String) (sampled : List ℕ) (coefficients : List ℚ)
    (w : ℕ → String → ℚ) (cf : ℕ → ℚ)
    (hgnd : gk.Nodup) (hne : sampled ≠ [])
    (h : ∀ j (hj : j < sampled.length),
      coefficients[j]? = some (cf j) ∧
      ∃ lw, clients[sampled.get ⟨j, hj⟩]? = some lw ∧
        ∀ k ∈ gk, dlookup lw k = some (w j k)) :
    ∃ res, aggregate clients gk sampled coefficients = some res ∧
      keysOf res = gk ∧
      ∀ k ∈ gk, dlookup res k
        = some (∑ j ∈ Finset.range sampled.length, cf j * w j k) := by
  refine ⟨_, aggregate_sum_helper clients gk sampled coefficients w cf
    hgnd hne h, keysOf_mapOf _ _, ?_⟩
  intro k hk
  exact dlookup_mapOf _ hk

theorem C1_witness :
    ∃ res, aggregate [[("a", 2)], [("a", 4)]] ["a"] [0, 1]
        [1, 2] = some res ∧ keysOf res = ["a"] ∧
      ∀ k ∈ (["a"] : List String), dlookup res k = some 10 := by
  obtain ⟨res, h1, h2, h3⟩ := C1_aggregate_weighted_sum
    [[("a", 2)], [("a", 4)]] ["a"] [0, 1] [1, 2]
    (fun j _ => if j = 0 then 2 else 4) (fun j => if j = 0 then 1 else 2)
    (by decide) (by decide)
    (by
      intro j hj
      simp only [List.length_cons, List.length_nil] at hj
      interval_cases j
      · exact ⟨by rfl, [("a", 2)], by rfl, by decide⟩
      · exact ⟨by rfl, [("a", 4)], by rfl, by decide⟩)
  refine ⟨res, h1, h2, ?_⟩
  intro k hk
  rw [h3 k hk]
  congr 1
  norm_num [Finset.sum_range_succ, List.length_cons, List.length_nil]

theorem dlookup_isSome_of_mem {d : StateDict} {k : String}
    (hk : k ∈ keysOf d) : ∃ v, dlookup d k = some v := by
  induction d with
  | nil => simp [keysOf] at hk
  | cons p rest ih =>
      obtain ⟨k₀, v₀⟩ := p
      by_cases hke : k₀ = k
      · exact ⟨v₀, by simp [dlookup, hke]⟩
      · have : k ∈ keysOf rest := by
          simp [keysOf] at hk
          rcases hk with h | h
          · exact absurd h.symm hke
          · simpa [keysOf] using h
        obtain ⟨v, hv⟩ := ih this
        exact ⟨v, by simp [dlookup, hke, hv]⟩

theorem mapOf_keysOf {d : StateDict} (hnd : (keysOf d).Nodup) :
    mapOf (keysOf d) (fun k => (dlookup d k).getD 0) = d := by
  induction d with
  | nil => rfl
  | cons p rest ih =>
      obtain ⟨k₀, v₀⟩ := p
      have hkeys : keysOf ((k₀, v₀) :: rest) = k₀ :: keysOf rest := rfl
      rw [hkeys] at hnd ⊢
      rcases List.nodup_cons.1 hnd with ⟨hk₀, hnd'⟩
      have hhead : (dlookup ((k₀, v₀) :: rest) k₀).getD 0 = v₀ := by
        simp [dlookup]
      have htail : mapOf (keysOf rest)
          (fun k => (dlookup ((k₀, v₀) :: rest) k).getD 0)
          = mapOf (keysOf rest) (fun k => (dlookup rest k).getD 0) := by
        refine mapOf_congr ?_
        intro x hx
        have hxk : k₀ ≠ x := fun he => hk₀ (he ▸ hx)
        simp [dlookup, hxk]
      simp only [mapOf, List.map_cons] at ih ⊢
      rw [hhead]
      refine congrArg₂ _ rfl ?_
      have := htail
      simp only [mapOf] at this
      rw [this]
      exact ih hnd'

/-- C7: aggregating exactly one sampled session with the single
coefficient 1 reproduces the exported state of that session exactly. -/
theorem C7_aggregate_single_idempotent (clients : List StateDict)
    (gk : List String) (idx : ℕ) (d : StateDict)
    (hidx : clients[idx]? = some d) (hkeys : keysOf d = gk)
    (hnd : gk.Nodup) :
    aggregate clients gk [idx] [1] = some d := by
  have hval : ∀ k ∈ gk, dlookup d k = some ((dlookup d k).getD 0) := by
    intro k hk
    obtain ⟨v, hv⟩ := dlookup_isSome_of_mem (k := k) (d := d)
      (hkeys ▸ hk)
    simp [hv]
  have hseed := aggStep_true_mapOf 1 d (fun k => (dlookup d k).getD 0)
    gk hnd hval
  have hres : mapOf gk (fun k => (dlookup d k).getD 0) = d := by
    rw [← hkeys]
    exact mapOf_keysOf (hkeys ▸ hnd)
  simp [aggregate, aggLoop, hidx, hseed, hres]

theorem C7_witness :
    aggregate [[("a", 3), ("b", 5)]] ["a", "b"] [0] [1]
      = some [("a", 3), ("b", 5)] :=
  C7_aggregate_single_idempotent [[("a", 3), ("b", 5)]] ["a", "b"] 0
    [("a", 3), ("b", 5)] (by decide) (by decide) (by decide)

theorem aggStep_some_lookup (c : ℚ) (lw : StateDict) (first : Bool) :
    ∀ (ks : List String) (acc acc2 : StateDict),
      aggStep c lw first ks acc = some acc2 →
      ∀ k ∈ ks, (dlookup lw k).isSome := by
  intro ks
  induction ks with
  | nil => intro acc acc2 _ k hk; simp at hk
  | cons k₀ ks ih =>
      intro acc acc2 hstep k hk
      rcases List.mem_cons.1 hk with h | h
      · subst h
        cases hv : dlookup lw k with
        | none => simp [aggStep, hv] at hstep
        | some v => simp [hv]
      · cases hv : dlookup lw k₀ with
        | none => simp [aggStep, hv] at hstep
        | some v =>
            simp only [aggStep, hv] at hstep
            cases first with
            | true =>
                simp only [if_pos] at hstep
                exact ih _ _ hstep k h
            | false =>
                simp only [Bool.false_eq_true, if_false] at hstep
                cases ha : dlookup acc k₀ with
                | none => simp [ha] at hstep
                | some a =>
                    simp only [ha] at hstep
                    exact ih _ _ hstep k h

theorem aggLoop_some_lookup (clients : List StateDict) (gk : List String)
    (coefficients : List ℚ) :
    ∀ (sampled : List ℕ) (it : ℕ) (acc r : StateDict),
      aggLoop clients gk coefficients sampled it acc = some r →
      ∀ idx ∈ sampled, ∃ lw, clients[idx]? = some lw ∧
        ∀ k ∈ gk, (dlookup lw k).isSome := by
  intro sampled
  induction sampled with
  | nil => intro it acc r _ idx hidx; simp at hidx
  | cons i rest ih =>
      intro it acc r hloop idx hidx
      cases hlw : clients[i]? with
      | none => simp [aggLoop, hlw] at hloop
      | some lw =>
          cases hc : coefficients[it]? with
          | none => simp [aggLoop, hlw, hc] at hloop
          | some c =>
              simp only [aggLoop, hlw, hc] at hloop
              cases hstep : aggStep c lw (it == 0) gk acc with
              | none => simp [hstep] at hloop
              | some acc2 =>
                  simp only [hstep] at hloop
                  rcases List.mem_cons.1 hidx with h | h
                  · subst h
                    exact ⟨lw, hlw, aggStep_some_lookup _ _ _ _ _ _ hstep⟩
                  · exact ih _ _ _ hloop idx h

/-- C5 counterexample: a sampled session whose exported key set strictly
exceeds the coordinator key set ("b" is exported but not a global key);
aggregation succeeds silently instead of failing on the mismatch. -/
theorem C5_counterexample :
    "b" ∈ keysOf [("a", 2), ("b", 5)] ∧
    "b" ∉ (["a"] : List String) ∧
    aggregate [[("a", 2), ("b", 5)]] ["a"] [0] [1] = some [("a", 2)] := by
  refine ⟨by decide, by decide, ?_⟩
  simp [aggregate, aggLoop, aggStep, dlookup, odAssign]

/-- C5 (amended): FedAvg.aggregate performs no key-set validation; when a
sampled session lacks some coordinator key the combination fails with a
key lookup error (none), and extra session keys are silently ignored. -/
theorem C5_missing_key_fails (clients : List StateDict) (gk : List String)
    (sampled : List ℕ) (coefficients : List ℚ) (idx : ℕ) (lw : StateDict)
    (k : String) (hidx : idx ∈ sampled) (hlw : clients[idx]? = some lw)
    (hk : k ∈ gk) (hmiss : dlookup lw k = none) :
    aggregate clients gk sampled coefficients = none := by
  cases hr : aggregate clients gk sampled coefficients with
  | none => rfl
  | some r =>
      obtain ⟨lw', hlw', hsome⟩ :=
        aggLoop_some_lookup clients gk coefficients sampled 0 [] r hr idx hidx
      rw [hlw] at hlw'
      obtain rfl : lw = lw' := by simpa using hlw'
      have := hsome k hk
      rw [hmiss] at this
      simp at this

theorem C5_missing_key_witness :
    aggregate [[("a", 2)]] ["a", "b"] [0] [1] = none :=
  C5_missing_key_fails [[("a", 2)]] ["a", "b"] [0] [1] 0 [("a", 2)] "b"
    (by decide) (by rfl) (by decide) (by decide)

/-- The inner loop of FedADG.aggregate (src/server.py lines 309-316): one
pass over the keys of the PRIMARY model state dict, updating the primary
accumulator from the client model weights and the generator accumulator
from the client generator weights at the same key. -/
def aggStepADG (c : ℚ) (lw lgw : StateDict) (first : Bool) :
    List String → StateDict → StateDict → Option (StateDict × StateDict)
  | [], accW, accG => some (accW, accG)
  | k :: ks, accW, accG =>
    match dlookup lw k, dlookup lgw k with
    | some v, some gv =>
      if first then
        aggStepADG c lw lgw first ks (odAssign accW k (c * v))
          (odAssign accG k (c * gv))
      else
        match dlookup accW k, dlookup accG k with
        | some a, some ag =>
            aggStepADG c lw lgw first ks (odAssign accW k (a + c * v))
              (odAssign accG k (ag + c * gv))
        | _, _ => none
    | _, _ => none

/-- The outer loop of FedADG.aggregate (src/server.py lines 306-316). -/
def aggLoopADG (clients gens : List StateDict) (gk : List String)
    (coefficients : List ℚ) :
    List ℕ → ℕ → StateDict → StateDict → Option (StateDict × StateDict)
  | [], _, accW, accG => some (accW, accG)
  | idx :: rest, it, accW, accG =>
    match clients[idx]?, gens[idx]?, coefficients[it]? with
    | some lw, some lgw, some c =>
      match aggStepADG c lw lgw (it == 0) gk accW accG with
      | none => none
      | some (accW2, accG2) =>
          aggLoopADG clients gens gk coefficients rest (it + 1) accW2 accG2
    | _, _, _ => none

/-- FedADG.aggregate (src/server.py lines 298-318): aggregates the model
state dicts and the generator state dicts of the sampled clients, both
iterated over the key list gk of the global PRIMARY model. -/
def aggregateADG (clients gens : List StateDict) (gk : List String)
    (sampled : List ℕ) (coefficients : List ℚ) :
    Option (StateDict × StateDict) :=
  aggLoopADG clients gens gk coefficients sampled 0 [] []

/-- Modelled from the spec: the dual-model aggregation as section 4.4 and
its variant paragraph describe it, the primary state combined over the
primary key set and the auxiliary state independently over its own
(auxiliary) key set, with the same coefficient vector for both.  Used only
to compare the spec reading against aggregateADG. -/
def aggregateDualSpec (clients gens : List StateDict)
    (gkPrimary gkAux : List String) (sampled : List ℕ)
    (coefficients : List ℚ) : Option (StateDict × StateDict) :=
  match aggregate clients gkPrimary sampled coefficients,
      aggregate gens gkAux sampled coefficients with
  | some p, some q => some (p, q)
  | _, _ => none

theorem aggStepADG_pair (c : ℚ) (lw lgw : StateDict) (first : Bool) :
    ∀ (ks : List String) (accW accG p q : StateDict),
      aggStep c lw first ks accW = some p →
      aggStep c lgw first ks accG = some q →
      aggStepADG c lw lgw first ks accW accG = some (p, q) := by
  intro ks
  induction ks with
  | nil =>
      intro accW accG p q hp hq
      simp only [aggStep, Option.some.injEq] at hp hq
      simp [aggStepADG, hp, hq]
  | cons k ks ih =>
      intro accW accG p q hp hq
      cases hv : dlookup lw k with
      | none => simp [aggStep, hv] at hp
      | some v =>
          cases hgv : dlookup lgw k with
          | none => simp [aggStep, hgv] at hq
          | some gv =>
              simp only [aggStep, hv] at hp
              simp only [aggStep, hgv] at hq
              simp only [aggStepADG, hv, hgv]
              cases first with
              | true =>
                  simp only [if_pos] at hp hq ⊢
                  exact ih _ _ _ _ hp hq
              | false =>
                  simp only [Bool.false_eq_true, if_false] at hp hq ⊢
                  cases ha : dlookup accW k with
                  | none => simp [ha] at hp
                  | some a =>
                      cases hag : dlookup accG k with
                      | none => simp [hag] at hq
                      | some ag =>
                          simp only [ha] at hp
                          simp only [hag] at hq
                          simp only [ha, hag]
                          exact ih _ _ _ _ hp hq

theorem aggLoopADG_pair (clients gens : List StateDict) (gk : List String)
    (coefficients : List ℚ) :
    ∀ (sampled : List ℕ) (it : ℕ) (accW accG p q : StateDict),
      aggLoop clients gk coefficients sampled it accW = some p →
      aggLoop gens gk coefficients sampled it accG = some q →
      aggLoopADG clients gens gk coefficients sampled it accW accG
        = some (p, q) := by
  intro sampled
  induction sampled with
  | nil =>
      intro it accW accG p q hp hq
      simp only [aggLoop, Option.some.injEq] at hp hq
      simp [aggLoopADG, hp, hq]
  | cons i rest ih =>
      intro it accW accG p q hp hq
      cases hlw : clients[i]? with
      | none => simp [aggLoop, hlw] at hp
      | some lw =>
          cases hlgw : gens[i]? with
          | none => simp [aggLoop, hlgw] at hq
          | some lgw =>
              cases hc : coefficients[it]? with
              | none => simp [aggLoop, hlw, hc] at hp
              | some c =>
                  simp only [aggLoop, hlw, hc] at hp
                  simp only [aggLoop, hlgw, hc] at hq
                  cases hsw : aggStep c lw (it == 0) gk accW with
                  | none => simp [hsw] at hp
                  | some accW2 =>
                      cases hsg : aggStep c lgw (it == 0) gk accG with
                      | none => simp [hsg] at hq
                      | some accG2 =>
                          simp only [hsw] at hp
                          simp only [hsg] at hq
                          simp only [aggLoopADG, hlw, hlgw, hc,
                            aggStepADG_pair c lw lgw (it == 0) gk accW accG
                              accW2 accG2 hsw hsg]
                          exact ih _ _ _ _ _ hp hq

/-- C4 counterexample: the generator state dict of the single sampled
session has key set containing "b" but not the primary key "a";
FedADG.aggregate iterates the primary key set for both dicts and fails
with a KeyError (none), while the spec reading (each state combined over
its own key set) produces a result. -/
theorem C4_counterexample :
    aggregateADG [[("a", 1)]] [[("b", 1)]] ["a"] [0] [1] = none ∧
    aggregateDualSpec [[("a", 1)]] [[("b", 1)]] ["a"] ["b"] [0] [1]
      = some ([("a", 1)], [("b", 1)]) := by
  constructor
  · simp [aggregateADG, aggLoopADG, aggStepADG, dlookup]
  · simp [aggregateDualSpec, aggregate, aggLoop, aggStep, dlookup, odAssign]

/-- C4 (amended): FedADG.aggregate performs the weighted combination with
the same coefficient vector for both states, but iterates the primary key
set for both; when every sampled session exports values at all primary
keys in both dicts, each output is the weighted combination of the
corresponding dicts over the primary key set (so with equal key sets and
equal coefficients 1/3 over three sessions it is the unweighted mean of
both states independently). -/
theorem C4_aggregateADG_primary_keys (clients gens : List StateDict)
    (gk : List String) (sampled : List ℕ) (coefficients : List ℚ)
    (w g : ℕ → String → ℚ) (cf : ℕ → ℚ)
    (hgnd : gk.Nodup) (hne : sampled ≠ [])
    (h : ∀ j (hj : j < sampled.length),
      coefficients[j]? = some (cf j) ∧
      (∃ lw, clients[sampled.get ⟨j, hj⟩]? = some lw ∧
        ∀ k ∈ gk, dlookup lw k = some (w j k)) ∧
      (∃ lgw, gens[sampled.get ⟨j, hj⟩]? = some lgw ∧
        ∀ k ∈ gk, dlookup lgw k = some (g j k))) :
    aggregateADG clients gens gk sampled coefficients
      = some
        (mapOf gk (fun k =>
          ∑ j ∈ Finset.range sampled.length, cf j * w j k),
         mapOf gk (fun k =>
          ∑ j ∈ Finset.range sampled.length, cf j * g j k)) := by
  have hp := aggregate_sum_helper clients gk sampled coefficients w cf
    hgnd hne (fun j hj => ⟨(h j hj).1, (h j hj).2.1⟩)
  have hq := aggregate_sum_helper gens gk sampled coefficients g cf
    hgnd hne (fun j hj => ⟨(h j hj).1, (h j hj).2.2⟩)
  exact aggLoopADG_pair clients gens gk coefficients sampled 0 [] [] _ _
    hp hq

theorem C4_witness :
    aggregateADG [[("a", 1)], [("a", 2)], [("a", 3)]]
      [[("a", 4)], [("a", 5)], [("a", 9)]] ["a"] [0, 1, 2]
      [1/3, 1/3, 1/3] = some ([("a", 2)], [("a", 6)]) := by
  have h := C4_aggregateADG_primary_keys
    [[("a", 1)], [("a", 2)], [("a", 3)]]
    [[("a", 4)], [("a", 5)], [("a", 9)]] ["a"] [0, 1, 2] [1/3, 1/3, 1/3]
    (fun j _ => if j = 0 then 1 else if j = 1 then 2 else 3)
    (fun j _ => if j = 0 then 4 else if j = 1 then 5 else 9)
    (fun _ => 1/3) (by decide) (by decide)
    (by
      intro j hj
      simp only [List.length_cons, List.length_nil] at hj
      interval_cases j
      · exact ⟨by rfl, ⟨[("a", 1)], by rfl, by decide⟩,
          ⟨[("a", 4)], by rfl, by decide⟩⟩
      · exact ⟨by rfl, ⟨[("a", 2)], by rfl, by decide⟩,
          ⟨[("a", 5)], by rfl, by decide⟩⟩
      · exact ⟨by rfl, ⟨[("a", 3)], by rfl, by decide⟩,
          ⟨[("a", 9)], by rfl, by decide⟩⟩)
  rw [h]
  norm_num [mapOf, Finset.sum_range_succ, List.length_cons,
    List.length_nil]

/-- Python int() applied to a real number: truncation toward zero. -/
def pyint (q : ℚ) : ℤ := if 0 ≤ q then ⌊q⌋ else ⌈q⌉

/-- numpy np.random.choice(range(n), size, replace=False): the randomly
drawn list is supplied as the explicit input draw (its distribution is
irrelevant to the claims); numpy raises a ValueError when the population
is empty or when more samples than the population size are requested
without replacement. -/
def np_choice (n size : ℕ) (draw : List ℕ) : Option (List ℕ) :=
  if n = 0 then none
  else if size ≤ n then some draw else none

/-- FedAvg.sample_clients (src/server.py lines 83-96):
num_sampled = max(int(fraction * num_clients), 1), then a distinct random
draw of that size from range(num_clients), returned sorted ascending. -/
def sample_clients (numClients : ℕ) (fraction : ℚ) (draw : List ℕ) :
    Option (List ℕ) :=
  let numSampled := (max (pyint (fraction * numClients)) 1).toNat
  (np_choice numClients numSampled draw).map
    (fun l => List.insertionSort (· ≤ ·) l)

/-- C2: for numClients >= 1 and fraction in (0,1], sample_clients returns
a strictly ascending list of indices of size
max(floor(fraction*numClients), 1), all below numClients (the draw input
ranges over the possible outputs of the numpy sampler). -/
theorem C2_sample_clients_spec (numClients : ℕ) (fraction : ℚ)
    (draw : List ℕ) (hn : 1 ≤ numClients) (hf0 : 0 < fraction)
    (hf1 : fraction ≤ 1)
    (hlen : draw.length = (max (pyint (fraction * numClients)) 1).toNat)
    (hnodup : draw.Nodup) (hmem : ∀ x ∈ draw, x < numClients) :
    ∃ l, sample_clients numClients fraction draw = some l ∧
      l.Sorted (· < ·) ∧
      l.length = max (⌊fraction * (numClients : ℚ)⌋.toNat) 1 ∧
      ∀ x ∈ l, x < numClients := by
  have hq0 : (0 : ℚ) ≤ fraction * numClients :=
    mul_nonneg hf0.le (by positivity)
  have hpy : pyint (fraction * numClients) = ⌊fraction * (numClients : ℚ)⌋ := by
    simp [pyint, hq0]
  have hfloor_le : ⌊fraction * (numClients : ℚ)⌋ ≤ (numClients : ℤ) := by
    have h1 : fraction * (numClients : ℚ) ≤ (numClients : ℚ) := by
      nlinarith [Nat.cast_nonneg (α := ℚ) numClients]
    calc ⌊fraction * (numClients : ℚ)⌋ ≤ ⌊(numClients : ℚ)⌋ :=
          Int.floor_le_floor h1
      _ = (numClients : ℤ) := Int.floor_natCast numClients
  have hk_le : (max (pyint (fraction * numClients)) 1).toNat ≤ numClients := by
    rw [hpy]
    omega
  have hchoice : np_choice numClients
      (max (pyint (fraction * numClients)) 1).toNat draw = some draw := by
    simp [np_choice, hk_le]
    omega
  refine ⟨List.insertionSort (· ≤ ·) draw, ?_, ?_, ?_, ?_⟩
  · simp [sample_clients, hchoice]
  · have hs : (List.insertionSort (· ≤ ·) draw).Sorted (· ≤ ·) :=
      List.sorted_insertionSort _ _
    have hnd : (List.insertionSort (· ≤ ·) draw).Nodup :=
      (List.perm_insertionSort (· ≤ ·) draw).nodup_iff.mpr hnodup
    exact hs.lt_of_le hnd
  · rw [(List.perm_insertionSort (· ≤ ·) draw).length_eq, hlen, hpy]
    omega
  · intro x hx
    exact hmem x ((List.perm_insertionSort (· ≤ ·) draw).mem_iff.mp hx)

theorem C2_witness :
    ∃ l, sample_clients 4 (1/2) [2, 0] = some l ∧
      l.Sorted (· < ·) ∧
      l.length = max (⌊(1/2 : ℚ) * (4 : ℚ)⌋.toNat) 1 ∧
      ∀ x ∈ l, x < 4 := by
  refine C2_sample_clients_spec 4 (1/2) [2, 0] (by norm_num)
    (by norm_num) (by norm_num) ?_ (by decide) (by decide)
  norm_num [pyint]
  decide

/-- FedAvg.update_clients (src/server.py lines 99-122): after fitting, the
returned selected_total_size is the sum of len(client) over the sampled
indices (same sum in the sequential and the thread-pool branch); an
out-of-range index is an IndexError, hence none. -/
def selected_total_size (sizes : List ℕ) : List ℕ → Option ℕ
  | [] => some 0
  | idx :: rest =>
    match sizes[idx]?, selected_total_size sizes rest with
    | some s, some t => some (s + t)
    | _, _ => none

/-- The mixing-coefficient list comprehension of FedAvg.train_federated_model
(src/server.py line 177): len(clients[idx]) / selected_total_size for each
sampled idx.  Python true division by zero raises ZeroDivisionError, hence
none. -/
def mixing_coefficients (sizes : List ℕ) (total : ℕ) :
    List ℕ → Option (List ℚ)
  | [] => some []
  | idx :: rest =>
    match sizes[idx]? with
    | none => none
    | some s =>
      if total = 0 then none
      else
        match mixing_coefficients sizes total rest with
        | none => none
        | some cs => some (((s : ℚ) / (total : ℚ)) :: cs)

theorem mixing_coefficients_sum (sizes : List ℕ) (total : ℕ)
    (htot : total ≠ 0) :
    ∀ (sampled : List ℕ) (s : ℕ),
      selected_total_size sizes sampled = some s →
      ∃ cs, mixing_coefficients sizes total sampled = some cs ∧
        cs.length = sampled.length ∧
        (∀ j (hj : j < sampled.length),
          cs[j]? = some ((sizes.getD (sampled.get ⟨j, hj⟩) 0 : ℚ)
            / (total : ℚ))) ∧
        (∀ c ∈ cs, 0 ≤ c) ∧
        cs.sum = (s : ℚ) / (total : ℚ) := by
  intro sampled
  induction sampled with
  | nil =>
      intro s hs
      simp only [selected_total_size, Option.some.injEq] at hs
      subst hs
      exact ⟨[], rfl, rfl, by intro j hj; simp at hj, by simp, by simp⟩
  | cons idx rest ih =>
      intro s hs
      cases hsz : sizes[idx]? with
      | none => simp [selected_total_size, hsz] at hs
      | some sz =>
          cases hrest : selected_total_size sizes rest with
          | none => simp [selected_total_size, hsz, hrest] at hs
          | some t =>
              simp only [selected_total_size, hsz, hrest,
                Option.some.injEq] at hs
              obtain ⟨cs, hcs, hlen, hval, hnn, hsum⟩ := ih t hrest
              refine ⟨((sz : ℚ) / (total : ℚ)) :: cs, ?_, ?_, ?_, ?_, ?_⟩
              · simp [mixing_coefficients, hsz, htot, hcs]
              · simp [hlen]
              · intro j hj
                cases j with
                | zero =>
                    simp [List.get, List.getD_eq_getElem?_getD, hsz]
                | succ j =>
                    have hj' : j < rest.length := by
                      simpa [List.length_cons] using hj
                    have := hval j hj'
                    simpa [List.get] using this
              · intro c hc
                rcases List.mem_cons.1 hc with h | h
                · subst h; positivity
                · exact hnn c h
              · rw [List.sum_cons, hsum, ← hs]
                push_cast
                rw [div_add_div_same]

/-- C3: the mixing coefficient of sampled client i is
sampleCount[i] / (sum of sampled sample counts); when the sum is positive
the coefficients are non-negative and sum exactly to 1, and when the sum
is zero the coefficient computation fails (ZeroDivisionError) instead of
silently dividing by zero. -/
theorem C3_mixing_coefficients (sizes : List ℕ) (sampled : List ℕ)
    (total : ℕ) :
    (selected_total_size sizes sampled = some total → 0 < total →
      ∃ cs, mixing_coefficients sizes total sampled = some cs ∧
        cs.length = sampled.length ∧
        (∀ j (hj : j < sampled.length),
          cs[j]? = some ((sizes.getD (sampled.get ⟨j, hj⟩) 0 : ℚ)
            / (total : ℚ))) ∧
        (∀ c ∈ cs, 0 ≤ c) ∧ cs.sum = 1) ∧
    (sampled ≠ [] → mixing_coefficients sizes 0 sampled = none) := by
  constructor
  · intro hs hpos
    obtain ⟨cs, hcs, hlen, hval, hnn, hsum⟩ :=
      mixing_coefficients_sum sizes total (by omega) sampled total hs
    refine ⟨cs, hcs, hlen, hval, hnn, ?_⟩
    rw [hsum]
    rw [div_self]
    exact_mod_cast hpos.ne.symm
  · intro hne
    obtain ⟨idx, rest, rfl⟩ := List.exists_cons_of_ne_nil hne
    cases hsz : sizes[idx]? with
    | none => simp [mixing_coefficients, hsz]
    | some sz => simp [mixing_coefficients, hsz]

theorem C3_witness :
    (∃ cs, mixing_coefficients [1, 2] 3 [0, 1] = some cs ∧
      cs.length = 2 ∧ (∀ c ∈ cs, 0 ≤ c) ∧ cs.sum = 1) ∧
    mixing_coefficients [0, 0] 0 [0, 1] = none := by
  have h := C3_mixing_coefficients [1, 2] [0, 1] 3
  have h0 := C3_mixing_coefficients [0, 0] [0, 1] 0
  constructor
  · obtain ⟨cs, hcs, hlen, _, hnn, hsum⟩ :=
      h.1 (by decide) (by norm_num)
    exact ⟨cs, hcs, by simpa using hlen, hnn, hsum⟩
  · exact h0.2 (by decide)

/-- FedAvg.train_federated_model (src/server.py lines 162-178): one round:
sample clients, transmit (no failure mode relevant here), run the local
updates (the post-update client states and sizes are inputs), compute the
mixing coefficients, aggregate.  Any raised exception aborts the round,
hence none. -/
def train_federated_model (numClients : ℕ) (fraction : ℚ)
    (draw : List ℕ) (sizes : List ℕ) (clients : List StateDict)
    (gk : List String) : Option StateDict :=
  match sample_clients numClients fraction draw with
  | none => none
  | some sampled =>
    match selected_total_size sizes sampled with
    | none => none
    | some total =>
      match mixing_coefficients sizes total sampled with
      | none => none
      | some coefficients => aggregate clients gk sampled coefficients

/-- C6: with zero registered clients, sample_clients fails (numpy raises
on an empty population: zero clients is the InvalidConfiguration case of
the error taxonomy) and the round pipeline fails before any phase runs,
so the coordinator never reaches the Running state. -/
theorem C6_sample_zero_clients (fraction : ℚ) (draw : List ℕ)
    (sizes : List ℕ) (clients : List StateDict) (gk : List String) :
    sample_clients 0 fraction draw = none ∧
    train_federated_model 0 fraction draw sizes clients gk = none := by
  have h : sample_clients 0 fraction draw = none := by
    simp [sample_clients, np_choice]
  exact ⟨h, by simp [train_federated_model, h]⟩

/-- The attributes of the torch.nn module that src/server.py references in
setup_model: nn.DataParallel and nn.Sequential exist; the misspelled
nn.DataParalle (src/server.py line 264) does not, and Python getattr on a
missing module attribute raises AttributeError, hence none. -/
def nn_attrs : List String := ["DataParallel", "Sequential"]

def getattr_nn (name : String) : Option Unit :=
  if name ∈ nn_attrs then some () else none

/-- FedAvg.setup_model (src/server.py lines 38-50): assert round == 0
(AssertionError, hence none, otherwise), wrap featurizer, classifier and
the sequential model in nn.DataParallel, then optionally load a checkpoint
and set the round counter to start_epoch.  Returns the resulting round
counter. -/
def setup_model (round : ℕ) (modelFile : Bool) (startEpoch : ℕ) :
    Option ℕ :=
  if round = 0 then
    match getattr_nn "DataParallel", getattr_nn "DataParallel",
        getattr_nn "DataParallel", getattr_nn "Sequential" with
    | some _, some _, some _, some _ =>
        some (if modelFile then startEpoch else round)
    | _, _, _, _ => none
  else none

/-- C8: model setup succeeds exactly when the round counter is 0;
attempting setup after any round has begun fails via the assertion. -/
theorem C8_setup_requires_round_zero (round : ℕ) (modelFile : Bool)
    (startEpoch : ℕ) :
    (setup_model round modelFile startEpoch).isSome ↔ round = 0 := by
  by_cases h : round = 0
  · subst h
    simp [setup_model, getattr_nn, nn_attrs]
  · simp [setup_model, h]

/-- FedADG.setup_model (src/server.py lines 254-268): assert round == 0,
wrap featurizer and classifier in nn.DataParallel, wrap the generator via
the misspelled nn.DataParalle, wrap the sequential model, optionally load
a checkpoint.  The attribute access order follows the source lines. -/
def setup_model_ADG (round : ℕ) (modelFile : Bool) (startEpoch : ℕ) :
    Option ℕ :=
  if round = 0 then
    match getattr_nn "DataParallel", getattr_nn "DataParallel",
        getattr_nn "DataParalle", getattr_nn "DataParallel",
        getattr_nn "Sequential" with
    | some _, some _, some _, some _, some _ =>
        some (if modelFile then startEpoch else round)
    | _, _, _, _, _ => none
  else none

/-- C10: FedADG.setup_model fails on every input: for a nonzero round the
assertion fails, and for round 0 the access to the nonexistent attribute
nn.DataParalle raises AttributeError; the dual-model coordinator can never
complete model setup. -/
theorem C10_setup_ADG_always_fails (round : ℕ) (modelFile : Bool)
    (startEpoch : ℕ) :
    setup_model_ADG round modelFile startEpoch = none := by
  by_cases h : round = 0
  · subst h
    simp [setup_model_ADG, getattr_nn, nn_attrs]
  · simp [setup_model_ADG, h]

/-- Column j of the round-by-holdout metric matrix key_metric (the value
appended per holdout set per round at src/server.py line 227). -/
def colVals (km : List (List ℚ)) (j : ℕ) : List ℚ :=
  km.map (fun row => row.getD j 0)

/-- numpy np.argmax on a one-dimensional array: the index of the first
occurrence of the maximum; raises on an empty array, hence none. -/
def listArgmax : List ℚ → Option ℕ
  | [] => none
  | x :: xs =>
    match listArgmax xs with
    | none => some 0
    | some j => if x < xs.getD j 0 then some (j + 1) else some 0

theorem listArgmax_spec : ∀ (l : List ℚ), l ≠ [] →
    ∃ i, listArgmax l = some i ∧ i < l.length ∧
      (∀ r, r < l.length → l.getD r 0 ≤ l.getD i 0) ∧
      (∀ r, r < i → l.getD r 0 < l.getD i 0) := by
  intro l
  induction l with
  | nil => intro h; exact absurd rfl h
  | cons x xs ih =>
      intro _
      by_cases hxs : xs = []
      · subst hxs
        refine ⟨0, rfl, by simp, ?_, by omega⟩
        intro r hr
        simp only [List.length_cons, List.length_nil] at hr
        have hr0 : r = 0 := by omega
        subst hr0
        exact le_refl _
      · obtain ⟨j, hj, hjlen, hmax, hfirst⟩ := ih hxs
        by_cases hlt : x < xs.getD j 0
        · refine ⟨j + 1, ?_, by simpa using hjlen, ?_, ?_⟩
          · simp only [listArgmax, hj]
            rw [if_pos hlt]
          · intro r hr
            cases r with
            | zero => simpa using hlt.le
            | succ r =>
                refine le_of_le_of_eq (le_of_eq_of_le ?_
                  (hmax r (by simp only [List.length_cons] at hr; omega))) ?_
                · simp
                · simp
          · intro r hr
            cases r with
            | zero => simpa using hlt
            | succ r =>
                have := hfirst r (by omega)
                simpa using this
        · refine ⟨0, ?_, by simp, ?_, by omega⟩
          · simp only [listArgmax, hj]
            rw [if_neg hlt]
          · intro r hr
            cases r with
            | zero => simp
            | succ r =>
                have h1 : xs.getD r 0 ≤ xs.getD j 0 :=
                  hmax r (by simp only [List.length_cons] at hr; omega)
                have h2 : xs.getD j 0 ≤ x := not_lt.1 hlt
                simp only [List.getD_cons_succ, List.getD_cons_zero]
                exact le_trans h1 h2

/-- The reporting tail of FedAvg.fit (src/server.py lines 230-232):
key_metric becomes a numpy array (which requires rectangular rows),
np.argmax over axis 0 is unpacked into exactly four names (requiring
exactly four holdout-set columns, else a ValueError), and three values
are printed: columns 2 and 3 at the argmax round of column 0 and
column 3 at the argmax round of column 1. -/
def fit_report (km : List (List ℚ)) : Option (ℚ × ℚ × ℚ) :=
  match km with
  | [] => none
  | row0 :: _ =>
    if km.all (fun row => row.length == row0.length) then
      if row0.length = 4 then
        match listArgmax (colVals km 0), listArgmax (colVals km 1) with
        | some a, some b =>
            some ((km.getD a []).getD 2 0, (km.getD a []).getD 3 0,
              (km.getD b []).getD 3 0)
        | _, _ => none
      else none
    else none

/-- The end of FedAvg.fit (src/server.py lines 230-233): the report, then
one final broadcast transmission of the last global state to all
registered clients (transmit_model with no argument); the pair carries the
printed report and the number of clients the broadcast reaches. -/
def fit_final (km : List (List ℚ)) (numClients : ℕ) :
    Option ((ℚ × ℚ × ℚ) × ℕ) :=
  (fit_report km).map (fun t => (t, numClients))

/-- Modelled from the spec: "reports the best-performing round per holdout
set (selected by the last-listed metric value in each RoundRecord, argmax
over rounds)" — one argmax per holdout-set column.  Used only to compare
the spec reading against fit_report. -/
def best_round_per_holdout (km : List (List ℚ)) (ncols : ℕ) :
    List (Option ℕ) :=
  (List.range ncols).map (fun j => listArgmax (colVals km j))

/-- C9 counterexample: with metric matrix [[1,0,2,0],[0,1,9,8]], the best
round for holdout set 2 is round 1 with metric 9, yet the code reports
(2, 0, 8) — the holdout-2 and holdout-3 metrics at the round maximizing
holdout 0 and the holdout-3 metric at the round maximizing holdout 1 — so
no reported value is the best-performing-round metric of holdout set 2. -/
theorem C9_counterexample :
    fit_report [[1, 0, 2, 0], [0, 1, 9, 8]] = some (2, 0, 8) ∧
    best_round_per_holdout [[1, 0, 2, 0], [0, 1, 9, 8]] 4
      = [some 0, some 1, some 1, some 1] ∧
    (colVals [[1, 0, 2, 0], [0, 1, 9, 8]] 2).getD 1 0 = 9 ∧
    (2 : ℚ) ≠ 9 ∧ (0 : ℚ) ≠ 9 ∧ (8 : ℚ) ≠ 9 := by
  refine ⟨by decide, by decide, by decide, by decide, by decide,
    by decide⟩

/-- C9 (amended): after the configured rounds, fit computes the argmax
over rounds of the last-listed metric per holdout set, requires exactly
four holdout sets, and reports three values — the holdout-2 and holdout-3
metrics at the first round maximizing holdout 0 and the holdout-3 metric
at the first round maximizing holdout 1 — then performs exactly one final
broadcast transmission of the last global state to all registered
clients. -/
theorem C9_fit_final_report (km : List (List ℚ)) (numClients : ℕ)
    (hne : km ≠ []) (hrect : ∀ row ∈ km, row.length = 4) :
    ∃ a b, a < km.length ∧ b < km.length ∧
      (∀ r, r < km.length →
        (colVals km 0).getD r 0 ≤ (colVals km 0).getD a 0) ∧
      (∀ r, r < a → (colVals km 0).getD r 0 < (colVals km 0).getD a 0) ∧
      (∀ r, r < km.length →
        (colVals km 1).getD r 0 ≤ (colVals km 1).getD b 0) ∧
      (∀ r, r < b → (colVals km 1).getD r 0 < (colVals km 1).getD b 0) ∧
      fit_final km numClients =
        some (((km.getD a []).getD 2 0, (km.getD a []).getD 3 0,
          (km.getD b []).getD 3 0), numClients) := by
  obtain ⟨row0, rest, rfl⟩ := List.exists_cons_of_ne_nil hne
  have hcol0ne : colVals (row0 :: rest) 0 ≠ [] := by simp [colVals]
  have hcol1ne : colVals (row0 :: rest) 1 ≠ [] := by simp [colVals]
  obtain ⟨a, ha, halen, hamax, hafirst⟩ := listArgmax_spec _ hcol0ne
  obtain ⟨b, hb, hblen, hbmax, hbfirst⟩ := listArgmax_spec _ hcol1ne
  have hlen0 : (colVals (row0 :: rest) 0).length
      = (row0 :: rest).length := by simp [colVals]
  have hlen1 : (colVals (row0 :: rest) 1).length
      = (row0 :: rest).length := by simp [colVals]
  rw [hlen0] at halen hamax
  rw [hlen1] at hblen hbmax
  have h4 : row0.length = 4 := hrect row0 (by simp)
  have hall : (row0 :: rest).all
      (fun row => row.length == row0.length) = true := by
    rw [List.all_eq_true]
    intro row hrow
    have := hrect row hrow
    simp [this, h4]
  refine ⟨a, b, halen, hblen, hamax, hafirst, hbmax, hbfirst, ?_⟩
  simp [fit_final, fit_report, hall, h4, ha, hb]
  intro x hx
  exact hrect x (by simp [hx])

theorem C9_witness :
    fit_final [[1, 0, 2, 0], [0, 1, 9, 8]] 5 = some ((2, 0, 8), 5) := by
  obtain ⟨a, b, ha, hb, hamax, hafirst, hbmax, hbfirst, hfin⟩ :=
    C9_fit_final_report [[1, 0, 2, 0], [0, 1, 9, 8]] 5 (by decide)
      (by intro row hrow; fin_cases hrow <;> rfl)
  have ha2 : a < 2 := by simpa using ha
  have hb2 : b < 2 := by simpa using hb
  have ha0 : a = 0 := by
    interval_cases a
    · rfl
    · exact absurd (hamax 0 (by decide)) (by decide)
  have hb1 : b = 1 := by
    interval_cases b
    · exact absurd (hbmax 1 (by decide)) (by decide)
    · rfl
  subst ha0
  subst hb1
  rw [hfin]
  decide
